import Mathlib

/-!
Shallow embedding of the electronic-structure reconstruction pipeline of the
nomad-parser-wannier90 repository (`src/nomad_parser_wannier90/parser.py` and
`src/nomad_parser_wannier90/hr_parser.py`), together with proofs about its
k-path reconstruction, band assembly, hopping-matrix assembly and Fermi-level
handling.

Python floats are modelled as exact rationals, `numpy` arrays as nested lists,
and sections of the output archive as plain structures with `Option` fields
for quantities that may stay unset.
-/

namespace Wannier90

/-- Floor of a rational number, written so that it reduces in the kernel:
`q.num / q.den` with Euclidean integer division, which Mathlib proves equal
to `Int.floor`. -/
def ratFloor (q : ℚ) : ℤ := q.num / q.den

/-- Kernel-computable integer square root by downward search:
`isqrtGo n b` is the largest `m ≤ b` with `m * m ≤ n`. -/
def isqrtGo (n : ℕ) : ℕ → ℕ
  | 0 => 0
  | m + 1 => if (m + 1) * (m + 1) ≤ n then m + 1 else isqrtGo n m

/-- Integer square root: the largest `m` with `m * m ≤ n`. -/
def isqrt (n : ℕ) : ℕ := isqrtGo n n

/-- Rounding of the real square root of a nonnegative rational, exactly:
`rsqrtRound q` equals Python's `round` (nearest integer, ties to even) applied
to `sqrt q`.  `m` is the floor of `sqrt q`; the comparison of `4 * q` with
`(2 * m + 1) ^ 2` decides between `m` and `m + 1`, with the tie
`sqrt q = m + 1/2` broken towards the even value as CPython's `round` does. -/
def rsqrtRound (q : ℚ) : ℕ :=
  let m := isqrt (Int.toNat (ratFloor q))
  if 4 * q < ((2 * m + 1 : ℕ) : ℚ) ^ 2 then m
  else if ((2 * m + 1 : ℕ) : ℚ) ^ 2 < 4 * q then m + 1
  else if m % 2 = 0 then m else m + 1

/-- Python 3 `round` on an exact rational: nearest integer, ties to even. -/
def pyRound (q : ℚ) : ℤ :=
  let f := ratFloor q
  if q - (f : ℚ) < 1 / 2 then f
  else if (1 / 2 : ℚ) < q - (f : ℚ) then f + 1
  else if f % 2 = 0 then f else f + 1

/-- A 3-vector of exact rationals, standing for a row of three floats. -/
structure Vec3 where
  x : ℚ
  y : ℚ
  z : ℚ
deriving DecidableEq, Repr

instance : Inhabited Vec3 := ⟨⟨0, 0, 0⟩⟩

def vadd (a b : Vec3) : Vec3 := ⟨a.x + b.x, a.y + b.y, a.z + b.z⟩

def vsub (a b : Vec3) : Vec3 := ⟨a.x - b.x, a.y - b.y, a.z - b.z⟩

def vsmul (c : ℚ) (a : Vec3) : Vec3 := ⟨c * a.x, c * a.y, c * a.z⟩

/-- Squared Euclidean norm; `np.linalg.norm v` is its real square root. -/
def sqnorm (a : Vec3) : ℚ := a.x ^ 2 + a.y ^ 2 + a.z ^ 2

/-- A 3x3 matrix as three rows, as produced by `np.vstack` of the three
reciprocal lattice vectors. -/
structure Mat3 where
  r1 : Vec3
  r2 : Vec3
  r3 : Vec3
deriving DecidableEq, Repr

/-- Row vector times matrix of rows: `np.dot(k, reciprocal_lattice_vectors)`,
taking a fractional k-point to cartesian coordinates. -/
def cart (B : Mat3) (k : Vec3) : Vec3 :=
  vadd (vsmul k.x B.r1) (vadd (vsmul k.y B.r2) (vsmul k.z B.r3))

/-- Apply `f` to the last element of a list, leaving the rest unchanged.
Models the in-place updates `band_segments_points[-1] += 1` and
`kpoints[-1].append(...)` in `Wannier90Parser.get_k_points`. -/
def updateLast {α : Type} (f : α → α) : List α → List α
  | [] => []
  | [a] => [f a]
  | a :: b :: rest => a :: updateLast f (b :: rest)

/-- Per-segment point count of `Wannier90Parser.get_k_points`.
The source computes
`round(np.linalg.norm(cart_end - cart_start) / delta_k)` with
`delta_k = np.linalg.norm(first_end - first_start) / d`.  Over exact reals,
`norm_s / (norm_1 / d) = sqrt(d ^ 2 * sqs / sq1)` where `sqs`, `sq1` are the
squared norms, so the rounded value is `rsqrtRound (d ^ 2 * sqs / sq1)`.
For `d = 0` the source divides by zero: `delta_k` becomes IEEE `inf` (numpy
emits only a RuntimeWarning), each ratio `norm_s / inf` is `0.0`, and
`round` gives `0`; the rational form `d ^ 2 * sqs / sq1` yields the same
count `0` since its numerator vanishes. -/
def segCount (d : ℕ) (sq1 sqs : ℚ) : ℕ :=
  rsqrtRound ((d : ℚ) ^ 2 * sqs / sq1)

/-- The evenly spaced fractional k-points of one segment, excluding the
terminal endpoint:
`[start + i * (end - start) / n for i in range(n)]`. -/
def segKPoints (s e : Vec3) (n : ℕ) : List Vec3 :=
  (List.range n).map fun (i : ℕ) => vadd s (vsmul ((i : ℚ) / (n : ℚ)) (vsub e s))

/-- `Wannier90Parser.get_k_points` (parser.py lines 771-822), with the
regex-extracted inputs made explicit: `B` the stacked reciprocal lattice
vectors, `segs` the list of (start, end) fractional symmetry-point pairs,
`d` the divisions along the first k-path section.  Returns
`(n_kpoints, band_segments_points, kpoints)`.  The final segment's count is
incremented and its terminal endpoint appended, exactly as in the source. -/
def get_k_points (B : Mat3) (segs : List (Vec3 × Vec3)) (d : ℕ) :
    ℕ × List ℕ × List (List Vec3) :=
  let csq : Vec3 × Vec3 → ℚ := fun s => sqnorm (vsub (cart B s.2) (cart B s.1))
  let sq1 : ℚ :=
    match segs with
    | [] => 0
    | s :: _ => csq s
  let counts : List ℕ := segs.map fun s => segCount d sq1 (csq s)
  let kpts : List (List Vec3) :=
    List.zipWith (fun (s : Vec3 × Vec3) n => segKPoints s.1 s.2 n) segs counts
  let lastEnd : Vec3 :=
    match segs.getLast? with
    | some s => s.2
    | none => ⟨0, 0, 0⟩
  let counts2 := updateLast (· + 1) counts
  let kpts2 := updateLast (fun l => l ++ [lastEnd]) kpts
  (counts2.sum, counts2, kpts2)

/-- Row-major `np.reshape(flat, (r, c))`: defined only when the element count
matches exactly, as numpy raises otherwise. -/
def npReshape2 (flat : List ℚ) (r c : ℕ) : Option (List (List ℚ)) :=
  if flat.length = r * c then
    some ((List.range r).map fun i => (flat.drop (i * c)).take c)
  else none

/-- `np.transpose` of an `r x c` matrix given as a list of rows. -/
def transpose2 (rows : List (List ℚ)) (c : ℕ) : List (List ℚ) :=
  (List.range c).map fun j => rows.map fun row => row.getD j 0

/-- The band grid of `Wannier90Parser.parse_bandstructure`:
`bands = np.transpose(np.reshape(data[1], (n_bands, n_kpoints)))`. -/
def bands_grid (flat : List ℚ) (nBands nKpoints : ℕ) : Option (List (List ℚ)) :=
  (npReshape2 flat nBands nKpoints).map fun rows => transpose2 rows nKpoints

/-- Access one cell of a three-dimensional nested list,
defaulting out of range. -/
def cell3 (E : List (List (List ℚ))) (i j k : ℕ) : ℚ :=
  ((E.getD i []).getD j []).getD k 0

/-- The flat occupations comprehension of `parse_bandstructure`:
`[2.0 if energies[i, j, k] < energy_fermi_eV else 0.0
  for i in range(n_spin) for j in range(point_count) for k in range(n_bands)]`. -/
def occs_flat (E : List (List (List ℚ))) (fermi : ℚ) (ns nk nb : ℕ) : List ℚ :=
  (List.range ns).flatMap fun i =>
    (List.range nk).flatMap fun j =>
      (List.range nb).map fun k =>
        if cell3 E i j k < fermi then 2 else 0

/-- Row-major `np.reshape(flat, (a, b, c))`. -/
def npReshape3 (flat : List ℚ) (a b c : ℕ) : Option (List (List (List ℚ))) :=
  if flat.length = a * (b * c) then
    some ((List.range a).map fun i =>
      (List.range b).map fun j => (flat.drop (i * (b * c) + j * c)).take c)
  else none

/-- Occupations tensor of `parse_bandstructure`: the comprehension reshaped
back to `(n_spin, point_count, n_bands)`. -/
def occupations (E : List (List (List ℚ))) (fermi : ℚ) (ns nk nb : ℕ) :
    Option (List (List (List ℚ))) :=
  npReshape3 (occs_flat E fermi ns nk nb) ns nk nb

/-- One `BandEnergies` segment section appended by `parse_bandstructure`. -/
structure BandSegSec where
  n_kpoints : ℕ
  kpoints : List Vec3
  energies : List (List (List ℚ))
  occs : List (List (List ℚ))
deriving DecidableEq, Repr

/-- One `BandStructure` section.  `segments` collects the appended
`BandEnergies` subsections; the other fields are set before any reshape is
attempted. -/
structure BandStructureSec where
  energy_fermi : Option ℚ
  reciprocal_cell : Option Mat3
  segments : List BandSegSec
deriving DecidableEq, Repr

/-- The per-segment loop of `parse_bandstructure`: slices
`bands[bkp_init:bkp_last, :]` with the running offset, reshapes the slice to
`(1, point_count, n_bands)` (on a `c x n_bands` slice this wraps it in one
extra list level; a short slice would make numpy raise, which no claim here
exercises), and attaches the occupations tensor. -/
def mkSegments (bands : List (List ℚ)) (nb : ℕ) (fermi : ℚ) :
    ℕ → List (ℕ × List Vec3) → List BandSegSec
  | _, [] => []
  | off, (c, kp) :: rest =>
    let energies := [(bands.drop off).take c]
    { n_kpoints := c, kpoints := kp, energies := energies,
      occs := (occupations energies fermi 1 c nb).getD [] } ::
      mkSegments bands nb fermi (off + c) rest

/-- `Wannier90Parser.parse_bandstructure` (parser.py lines 824-897), for a
run where the Fermi level `fermi` is available, the reciprocal cell `B` is
set, a band file with data columns `col0`, `col1` is found, and the k-path
inputs are as in `get_k_points`.  Returns the list of `BandStructure`
sections appended to the calculation together with a flag recording whether
the reshape warning was issued.  The section is appended and its Fermi level
and reciprocal cell set before the reshape of `col1` into
`(n_bands, n_kpoints)` is attempted; on reshape failure the source logs a
warning and returns, leaving that partially populated section in place. -/
def parse_bandstructure (fermi : ℚ) (B : Mat3) (segs : List (Vec3 × Vec3))
    (d : ℕ) (col0 col1 : List ℚ) : List BandStructureSec × Bool :=
  let res := get_k_points B segs d
  let n_kpoints := res.1
  let base : BandStructureSec :=
    { energy_fermi := some fermi, reciprocal_cell := some B, segments := [] }
  let n_bands := (pyRound ((col0.length : ℚ) / (n_kpoints : ℚ))).toNat
  match npReshape2 col1 n_bands n_kpoints with
  | none => ([base], true)
  | some rows =>
    let bands := transpose2 rows n_kpoints
    ([{ base with
        segments := mkSegments bands n_bands fermi 0 (res.2.1.zip res.2.2) }],
      false)

/-- The `HoppingMatrix` section populated by `Wannier90Parser.parse_hoppings`;
`Option` fields stay `none` when the source never assigns them. -/
structure HoppingSec where
  n_orbitals : Option ℤ
  n_wigner_seitz_points : Option ℤ
  degeneracy_factors : Option (List ℤ)
  value : Option (List (List (List ℚ)))
deriving DecidableEq, Repr

/-- Result of `Wannier90Parser.parse_hoppings`: the hopping-matrix section,
whether the reshape warning was logged, and the Fermi level / highest
occupied energy (in eV) set on the calculation's energy section. -/
structure HoppingParseResult where
  hopping : HoppingSec
  warned : Bool
  fermi : Option ℚ
  highest_occupied : Option ℚ
deriving DecidableEq, Repr

/-- `Wannier90Parser.parse_hoppings` (parser.py lines 725-769), for a run
where an `*hr.dat` file is found and the degeneracy block matched, with the
extracted inputs explicit: `n_orb` the already parsed
`n_projected_orbitals`, `deg` the integer block captured after the
`written on` line, `hop` the flat float block.
The source sets `n_wigner_seitz_points = deg_factors[1]` and
`degeneracy_factors = deg_factors[2:]`, then tries
`np.reshape(full_hoppings, (n_wigner_seitz_points, n_orbitals**2, 7))`,
logging a warning and leaving `value` unset when the element count differs.
The trailing try block computes `int(0.5 * n_wigner_seitz_points)` (equal to
`toNat`-division by two for the nonnegative counts occurring here) and reads
`value[n_half][0][5]` as the Fermi level in eV; any failure (unset value,
out-of-range index) is swallowed by the bare `except`, modelled by the
`Option` chain. -/
def parse_hoppings (n_orb : ℤ) (deg : List ℤ) (hop : List ℚ) :
    HoppingParseResult :=
  let nwsp := deg.getD 1 0
  let degf := deg.drop 2
  let value := npReshape3 hop nwsp.toNat (n_orb * n_orb).toNat 7
  let n_half := nwsp.toNat / 2
  let fermi := value.bind fun v =>
    (v[n_half]?).bind fun m => (m[0]?).bind fun r => r[5]?
  { hopping :=
      { n_orbitals := some n_orb, n_wigner_seitz_points := some nwsp,
        degeneracy_factors := some degf, value := value },
    warned := value.isNone,
    fermi := fermi,
    highest_occupied := fermi }

/-- A Python runtime error relevant to name resolution: `NameError` for an
undefined bare name, `AttributeError` for a missing instance attribute. -/
inductive PyErr where
  | nameErr (s : String)
  | attrErr (s : String)
deriving DecidableEq, Repr

/-- One name-level access or binding performed while executing a Python
function body: reading a bare name (local, falling back to module globals),
reading a name compiled as a global load (never assigned in the body),
reading an attribute on `self`, binding a local, or an explicit
`return None`. -/
inductive PyStep where
  | loadLocal (s : String)
  | loadGlobal (s : String)
  | loadSelfAttr (s : String)
  | storeLocal (s : String)
  | returnNone
deriving DecidableEq, Repr

/-- Execute a list of accesses against the given local names, module
globals and `self` attributes, stopping at the first failing lookup with
the corresponding error; falling off the end returns `None` as Python
does. -/
def runSteps : List PyStep → List String → List String → List String →
    Except PyErr Unit
  | [], _, _, _ => .ok ()
  | step :: rest, locs, globs, attrs =>
    match step with
    | .loadLocal s =>
        if s ∈ locs then runSteps rest locs globs attrs
        else if s ∈ globs then runSteps rest locs globs attrs
        else .error (.nameErr s)
    | .loadGlobal s =>
        if s ∈ globs then runSteps rest locs globs attrs
        else .error (.nameErr s)
    | .loadSelfAttr s =>
        if s ∈ attrs then runSteps rest locs globs attrs
        else .error (.attrErr s)
    | .storeLocal s => runSteps rest (s :: locs) globs attrs
    | .returnNone => .ok ()

/-- Module-level names of `hr_parser.py`: its imports and the two classes it
defines. -/
def hrModuleGlobals : List String :=
  ["np", "List", "Optional", "Tuple", "BoundLogger", "TextParser", "Quantity",
   "HoppingMatrix", "CrystalFieldSplitting", "WignerSeitz", "HrParser",
   "Wannier90HrParser"]

/-- Instance attributes of `Wannier90HrParser` after `__init__`, which only
assigns `self.hr_parser`. -/
def hrInstanceAttrs : List String := ["hr_parser"]

/-- The name and `self`-attribute accesses performed by
`Wannier90HrParser.parse_hoppings` (hr_parser.py lines 45-73) in CPython
evaluation order, for an empty and a non-empty `hr_file` argument.  For an
assignment the right-hand side is evaluated before the target chain.
Accesses to attributes of objects other than `self` (such as
`.run[-1]` on the archive or `.get` on the parser object) are not
name-level lookups and are not listed.  The trailing two `try` blocks of
the source are omitted: the list is only consulted up to its first failing
access, and for every non-empty input that failure (`self.archive`) occurs
already in the first assignment after the `HoppingMatrix` construction. -/
def parseHoppingsSteps (hrFileNonEmpty : Bool) : List PyStep :=
  if hrFileNonEmpty then
    [ .loadLocal "hr_file",
      .loadLocal "hr_file", .loadLocal "self", .loadSelfAttr "hr_parser",
      .loadGlobal "HoppingMatrix", .storeLocal "hopping_matrix",
      .loadLocal "self", .loadSelfAttr "archive",
      .loadGlobal "sec_hopping_matrix",
      .loadLocal "self", .loadSelfAttr "hr_parser", .storeLocal "deg_factors",
      .loadLocal "deg_factors",
      .loadLocal "deg_factors", .loadGlobal "sec_hopping_matrix",
      .loadLocal "deg_factors", .loadGlobal "sec_hopping_matrix",
      .loadLocal "self", .loadSelfAttr "hr_parser",
      .storeLocal "full_hoppings",
      .returnNone ]
  else
    [ .loadLocal "hr_file", .loadLocal "logger", .returnNone ]

/-- `Wannier90HrParser.parse_hoppings` at the name-resolution level: the
parameters `self`, `hr_file`, `logger` are the local names in scope at
entry. -/
def runParseHoppings (hrFileNonEmpty : Bool) : Except PyErr Unit :=
  runSteps (parseHoppingsSteps hrFileNonEmpty) ["self", "hr_file", "logger"]
    hrModuleGlobals hrInstanceAttrs

/-- The state a `Wannier90ParserData` instance carries into
`parse_fermi_level`: the parsed contents of its input files.  The method
body reads none of it. -/
structure W90DataState where
  woutData : List ℚ
  hrData : List ℚ
deriving DecidableEq, Repr

/-- The `Outputs` section handed to `parse_fermi_level`; `fermi_level`
collects the appended `FermiLevel` values in eV. -/
structure OutputsSec where
  fermi_level : List ℚ
deriving DecidableEq, Repr

/-- `Wannier90ParserData.parse_fermi_level` (parser.py lines 385-400):
appends a `FermiLevel` whose value is the constant `0.5 * ureg.eV`.  The
hopping-matrix-derived computation below it is commented out in the
source, so the instance state is never read. -/
def parse_fermi_level (_self : W90DataState) (output : OutputsSec) :
    OutputsSec :=
  { output with fermi_level := output.fermi_level ++ [1 / 2] }

theorem ratFloor_eq_floor (q : ℚ) : ratFloor q = ⌊q⌋ := Rat.floor_def.symm

theorem isqrtGo_mul_self_le (n : ℕ) : ∀ b : ℕ, isqrtGo n b * isqrtGo n b ≤ n := by
  intro b
  induction b with
  | zero => simp [isqrtGo]
  | succ m ih =>
    by_cases h : (m + 1) * (m + 1) ≤ n
    · simp only [isqrtGo, if_pos h]; exact h
    · simpa [isqrtGo, h] using ih

theorem le_isqrtGo (n : ℕ) : ∀ b m : ℕ, m ≤ b → m * m ≤ n → m ≤ isqrtGo n b := by
  intro b
  induction b with
  | zero => intro m hm _; simp [isqrtGo]; omega
  | succ c ih =>
    intro m hm hsq
    by_cases h : (c + 1) * (c + 1) ≤ n
    · simpa [isqrtGo, h] using hm
    · have hmc : m ≤ c := by
        rcases Nat.lt_or_ge m (c + 1) with h' | h'
        · omega
        · exact absurd hsq (by
            have : (c + 1) * (c + 1) ≤ m * m := Nat.mul_le_mul h' h'
            omega)
      simpa [isqrtGo, h] using ih m hmc hsq

theorem isqrt_lt_succ_mul_succ (n : ℕ) : n < (isqrt n + 1) * (isqrt n + 1) := by
  by_contra h
  push_neg at h
  have h1 : isqrt n + 1 ≤ n := by nlinarith
  have h2 : isqrt n + 1 ≤ isqrt n := le_isqrtGo n n (isqrt n + 1) h1 h
  omega

theorem isqrt_mul_self (n : ℕ) : isqrt (n * n) = n := by
  have h1 : isqrt (n * n) * isqrt (n * n) ≤ n * n := isqrtGo_mul_self_le (n * n) (n * n)
  have hn : n ≤ n * n := by
    rcases Nat.eq_zero_or_pos n with h | h
    · simp [h]
    · calc n = n * 1 := (Nat.mul_one n).symm
        _ ≤ n * n := Nat.mul_le_mul_left n h
  have h2 : n ≤ isqrt (n * n) := le_isqrtGo (n * n) (n * n) n hn le_rfl
  have h3 : isqrt (n * n) ≤ n := by
    by_contra hlt
    push_neg at hlt
    nlinarith [h1]
  omega

theorem rsqrtRound_natCast_sq (d : ℕ) : rsqrtRound ((d : ℚ) ^ 2) = d := by
  have hfl : ratFloor ((d : ℚ) ^ 2) = ((d ^ 2 : ℕ) : ℤ) := by
    rw [ratFloor_eq_floor]
    have h : ((d : ℚ)) ^ 2 = (((d ^ 2 : ℕ) : ℤ) : ℚ) := by push_cast; ring
    rw [h, Int.floor_intCast]
  have hm : isqrt (Int.toNat (ratFloor ((d : ℚ) ^ 2))) = d := by
    rw [hfl, Int.toNat_natCast]
    simpa [pow_two] using isqrt_mul_self d
  have hd : (0 : ℚ) ≤ (d : ℚ) := Nat.cast_nonneg d
  unfold rsqrtRound
  rw [hm, if_pos]
  push_cast
  nlinarith [hd]

theorem rsqrtRound_zero : rsqrtRound 0 = 0 := by
  have h : rsqrtRound ((0 : ℚ) ^ 2) = 0 := rsqrtRound_natCast_sq 0
  simpa using h

set_option maxHeartbeats 1000000 in
/-- Faithfulness of `rsqrtRound` to the source's `round(sqrt ...)`: the value
is within one half of the real square root (the tie at exactly one half is
broken towards the even integer, as the branch on `m % 2` in the definition
shows). -/
theorem rsqrtRound_near_sqrt (q : ℚ) (hq : 0 ≤ q) :
    |Real.sqrt ((q : ℚ) : ℝ) - ((rsqrtRound q : ℕ) : ℝ)| ≤ 1 / 2 := by
  have hqR : (0 : ℝ) ≤ ((q : ℚ) : ℝ) := by exact_mod_cast hq
  have hfl0 : 0 ≤ ratFloor q := by
    rw [ratFloor_eq_floor]
    exact Int.floor_nonneg.mpr hq
  have htn : (((ratFloor q).toNat : ℤ) : ℚ) = ((ratFloor q : ℤ) : ℚ) := by
    exact_mod_cast congrArg Int.cast (Int.toNat_of_nonneg hfl0)
  have hfl_le : (((ratFloor q).toNat : ℕ) : ℚ) ≤ q := by
    calc (((ratFloor q).toNat : ℕ) : ℚ) = ((ratFloor q : ℤ) : ℚ) := by
          exact_mod_cast htn
      _ = ((⌊q⌋ : ℤ) : ℚ) := by rw [ratFloor_eq_floor]
      _ ≤ q := Int.floor_le q
  have hq_lt : q < (((ratFloor q).toNat : ℕ) : ℚ) + 1 := by
    have h1 : q < ((⌊q⌋ : ℤ) : ℚ) + 1 := Int.lt_floor_add_one q
    have h2 : (((ratFloor q).toNat : ℕ) : ℚ) = ((⌊q⌋ : ℤ) : ℚ) := by
      rw [show ((⌊q⌋ : ℤ) : ℚ) = ((ratFloor q : ℤ) : ℚ) from by
        rw [ratFloor_eq_floor]]
      exact_mod_cast htn
    rw [h2]
    exact h1
  unfold rsqrtRound
  set m := isqrt (ratFloor q).toNat with hmdef
  have hm_le : ((m : ℕ) : ℚ) * ((m : ℕ) : ℚ) ≤ q := by
    have h := isqrtGo_mul_self_le (ratFloor q).toNat (ratFloor q).toNat
    calc ((m : ℕ) : ℚ) * ((m : ℕ) : ℚ) = (((m * m : ℕ)) : ℚ) := by push_cast; ring
      _ ≤ (((ratFloor q).toNat : ℕ) : ℚ) := by exact_mod_cast h
      _ ≤ q := hfl_le
  have hm_lt : q < ((m : ℕ) : ℚ) * ((m : ℕ) : ℚ) + 2 * ((m : ℕ) : ℚ) + 1 := by
    have h := isqrt_lt_succ_mul_succ (ratFloor q).toNat
    have h2 : (((ratFloor q).toNat : ℕ) : ℚ) + 1 ≤
        (((m + 1) * (m + 1) : ℕ) : ℚ) := by exact_mod_cast h
    push_cast at h2
    nlinarith [hq_lt]
  have hm_leR : ((m : ℕ) : ℝ) * ((m : ℕ) : ℝ) ≤ ((q : ℚ) : ℝ) := by
    exact_mod_cast hm_le
  have hm_ltR : ((q : ℚ) : ℝ) <
      ((m : ℕ) : ℝ) * ((m : ℕ) : ℝ) + 2 * ((m : ℕ) : ℝ) + 1 := by
    exact_mod_cast hm_lt
  have hxm : ((m : ℕ) : ℝ) ≤ Real.sqrt ((q : ℚ) : ℝ) :=
    (Real.le_sqrt (by positivity) hqR).mpr (by nlinarith)
  have hxm1 : Real.sqrt ((q : ℚ) : ℝ) < ((m : ℕ) : ℝ) + 1 :=
    (Real.sqrt_lt' (by positivity)).mpr (by nlinarith)
  show |Real.sqrt ((q : ℚ) : ℝ) -
      ((if 4 * q < ((2 * m + 1 : ℕ) : ℚ) ^ 2 then m
        else if ((2 * m + 1 : ℕ) : ℚ) ^ 2 < 4 * q then m + 1
        else if m % 2 = 0 then m else m + 1 : ℕ) : ℝ)| ≤ 1 / 2
  split_ifs with h1 h2 h3
  · have h1R : 4 * ((q : ℚ) : ℝ) < (((2 * m + 1 : ℕ) : ℝ)) ^ 2 := by
      exact_mod_cast h1
    have hup : Real.sqrt ((q : ℚ) : ℝ) < ((m : ℕ) : ℝ) + 1 / 2 := by
      refine (Real.sqrt_lt' (by positivity)).mpr ?_
      push_cast at h1R
      nlinarith
    rw [abs_le]
    constructor <;> [nlinarith [hxm]; nlinarith [hup]]
  · have h2R : (((2 * m + 1 : ℕ) : ℝ)) ^ 2 < 4 * ((q : ℚ) : ℝ) := by
      exact_mod_cast h2
    have hlo : ((m : ℕ) : ℝ) + 1 / 2 < Real.sqrt ((q : ℚ) : ℝ) := by
      refine (Real.lt_sqrt (by positivity)).mpr ?_
      push_cast at h2R
      nlinarith
    rw [abs_le]
    push_cast
    constructor <;> [nlinarith [hlo]; nlinarith [hxm1]]
  · have heq : 4 * q = (((2 * m + 1 : ℕ)) : ℚ) ^ 2 := le_antisymm
      (not_lt.mp h2) (not_lt.mp h1)
    have heqR : ((q : ℚ) : ℝ) = (((m : ℕ) : ℝ) + 1 / 2) ^ 2 := by
      have h4 : 4 * ((q : ℚ) : ℝ) = (((2 * m + 1 : ℕ) : ℝ)) ^ 2 := by
        exact_mod_cast heq
      push_cast at h4
      nlinarith
    have hx : Real.sqrt ((q : ℚ) : ℝ) = ((m : ℕ) : ℝ) + 1 / 2 := by
      rw [heqR, Real.sqrt_sq (by positivity)]
    rw [hx, abs_le]
    constructor <;> norm_num
  · have heq : 4 * q = (((2 * m + 1 : ℕ)) : ℚ) ^ 2 := le_antisymm
      (not_lt.mp h2) (not_lt.mp h1)
    have heqR : ((q : ℚ) : ℝ) = (((m : ℕ) : ℝ) + 1 / 2) ^ 2 := by
      have h4 : 4 * ((q : ℚ) : ℝ) = (((2 * m + 1 : ℕ) : ℝ)) ^ 2 := by
        exact_mod_cast heq
      push_cast at h4
      nlinarith
    have hx : Real.sqrt ((q : ℚ) : ℝ) = ((m : ℕ) : ℝ) + 1 / 2 := by
      rw [heqR, Real.sqrt_sq (by positivity)]
    rw [hx, abs_le]
    push_cast
    constructor <;> norm_num

theorem length_segKPoints (s e : Vec3) (n : ℕ) : (segKPoints s e n).length = n := by
  simp only [segKPoints, List.length_map, List.length_range]

theorem sum_updateLast_add_one :
    ∀ l : List ℕ, l ≠ [] → (updateLast (· + 1) l).sum = l.sum + 1 := by
  intro l
  induction l with
  | nil => intro h; exact absurd rfl h
  | cons a t ih =>
    intro _
    cases t with
    | nil => simp [updateLast]
    | cons b r =>
      have := ih (by simp)
      simp only [updateLast, List.sum_cons] at *
      omega

theorem map_updateLast {α β : Type} (g : α → β) (f' : α → α) (f : β → β)
    (hfg : ∀ a, g (f' a) = f (g a)) :
    ∀ l : List α, (updateLast f' l).map g = updateLast f (l.map g) := by
  intro l
  induction l with
  | nil => rfl
  | cons a t ih =>
    cases t with
    | nil => simp [updateLast, hfg]
    | cons b r =>
      simp only [updateLast, List.map_cons] at *
      rw [ih]

theorem flatten_length_updateLast (segs : List (Vec3 × Vec3))
    (cnt : Vec3 × Vec3 → ℕ) (v : Vec3) :
    ((updateLast (fun l => l ++ [v])
        (segs.map fun s => segKPoints s.1 s.2 (cnt s))).flatten).length =
      (updateLast (· + 1) (segs.map cnt)).sum := by
  rw [List.length_flatten,
    map_updateLast List.length (fun l => l ++ [v]) (· + 1) (by intro l; simp),
    List.map_map]
  have h : (List.length ∘ fun s : Vec3 × Vec3 => segKPoints s.1 s.2 (cnt s)) = cnt :=
    funext fun s => length_segKPoints s.1 s.2 (cnt s)
  rw [h]

/-- C1: for every k-path reconstruction input with at least one segment whose
endpoints are distinct, a reciprocal lattice, and a first-segment division
count `d ≥ 1`, the triple `(n_kpoints, band_segments_points, kpoints)`
returned by `get_k_points` satisfies `sum band_segments_points = n_kpoints`,
and the concatenation of the per-segment k-point lists has exactly
`n_kpoints` coordinates. -/
theorem get_k_points_partition (B : Mat3) (segs : List (Vec3 × Vec3)) (d : ℕ)
    (hne : segs ≠ []) (_hd : 1 ≤ d) (_hdist : (segs.headI).1 ≠ (segs.headI).2) :
    ((get_k_points B segs d).2.1).sum = (get_k_points B segs d).1 ∧
    (((get_k_points B segs d).2.2).flatten).length = (get_k_points B segs d).1 := by
  obtain ⟨p, rest, rfl⟩ : ∃ p rest, segs = p :: rest := by
    cases segs with
    | nil => exact absurd rfl hne
    | cons p rest => exact ⟨p, rest, rfl⟩
  refine ⟨rfl, ?_⟩
  show ((updateLast (fun l => l ++ [_])
      (List.zipWith (fun (s : Vec3 × Vec3) n => segKPoints s.1 s.2 n) (p :: rest)
        ((p :: rest).map fun s => segCount d _ _))).flatten).length = _
  rw [List.zipWith_map_right, List.zipWith_same]
  exact flatten_length_updateLast (p :: rest) _ _

theorem get_k_points_single_eval (B : Mat3) (s e : Vec3) (d : ℕ)
    (hdist : sqnorm (vsub (cart B e) (cart B s)) ≠ 0) :
    (get_k_points B [(s, e)] d).2.1 = [d + 1] ∧
    (get_k_points B [(s, e)] d).1 = d + 1 := by
  have hq : (d : ℚ) ^ 2 * sqnorm (vsub (cart B e) (cart B s)) /
      sqnorm (vsub (cart B e) (cart B s)) = (d : ℚ) ^ 2 := by
    field_simp
  have hcnt : segCount d (sqnorm (vsub (cart B e) (cart B s)))
      (sqnorm (vsub (cart B e) (cart B s))) = d := by
    unfold segCount
    rw [hq, rsqrtRound_natCast_sq]
  constructor
  · show updateLast (· + 1) [segCount d _ _] = [d + 1]
    rw [show segCount d (sqnorm (vsub (cart B e) (cart B s)))
        (sqnorm (vsub (cart B e) (cart B s))) = d from hcnt]
    rfl
  · show (updateLast (· + 1) [segCount d _ _]).sum = d + 1
    rw [show segCount d (sqnorm (vsub (cart B e) (cart B s)))
        (sqnorm (vsub (cart B e) (cart B s))) = d from hcnt]
    simp [updateLast]

/-- C2: a path of exactly one segment with distinct endpoints and division
count `d ≥ 1` yields per-segment point counts `[d + 1]` and a total of
`d + 1` points (the terminal endpoint of the final segment is appended and
its count incremented).  Distinctness is taken in cartesian coordinates,
which is what the source's norm is computed from. -/
theorem get_k_points_single_segment (B : Mat3) (s e : Vec3) (d : ℕ) (_hd : 1 ≤ d)
    (hdist : sqnorm (vsub (cart B e) (cart B s)) ≠ 0) :
    (get_k_points B [(s, e)] d).2.1 = [d + 1] ∧
    (get_k_points B [(s, e)] d).1 = d + 1 :=
  get_k_points_single_eval B s e d hdist

theorem segCount_zero (sq1 sqs : ℚ) : segCount 0 sq1 sqs = 0 := by
  unfold segCount
  norm_num [rsqrtRound_zero]

/-- C8: evaluating `get_k_points` at a first-segment division count of `0`.
The source has no guard: `delta_k = norm / 0` is computed (numpy yields
`inf` with only an unlogged RuntimeWarning), every per-segment ratio rounds
to `0`, and after the final-segment patch the function returns one single
k-point (the terminal endpoint) instead of reporting an input error. -/
theorem get_k_points_zero_divisions (B : Mat3) (s e : Vec3) :
    get_k_points B [(s, e)] 0 = (1, [1], [[e]]) := by
  simp [get_k_points, segCount_zero, updateLast, segKPoints]

/-- Witness for C1 at a concrete one-segment input. -/
theorem get_k_points_partition_witness :
    ((get_k_points ⟨⟨1, 0, 0⟩, ⟨0, 1, 0⟩, ⟨0, 0, 1⟩⟩ [(⟨0, 0, 0⟩, ⟨1, 0, 0⟩)] 2).2.1).sum =
      (get_k_points ⟨⟨1, 0, 0⟩, ⟨0, 1, 0⟩, ⟨0, 0, 1⟩⟩ [(⟨0, 0, 0⟩, ⟨1, 0, 0⟩)] 2).1 ∧
    (((get_k_points ⟨⟨1, 0, 0⟩, ⟨0, 1, 0⟩, ⟨0, 0, 1⟩⟩ [(⟨0, 0, 0⟩, ⟨1, 0, 0⟩)] 2).2.2).flatten).length =
      (get_k_points ⟨⟨1, 0, 0⟩, ⟨0, 1, 0⟩, ⟨0, 0, 1⟩⟩ [(⟨0, 0, 0⟩, ⟨1, 0, 0⟩)] 2).1 :=
  get_k_points_partition ⟨⟨1, 0, 0⟩, ⟨0, 1, 0⟩, ⟨0, 0, 1⟩⟩ [(⟨0, 0, 0⟩, ⟨1, 0, 0⟩)] 2
    (by simp) (by norm_num) (by decide)

/-- Witness for C2 at a concrete segment with three divisions. -/
theorem get_k_points_single_segment_witness :
    (get_k_points ⟨⟨1, 0, 0⟩, ⟨0, 1, 0⟩, ⟨0, 0, 1⟩⟩ [(⟨0, 0, 0⟩, ⟨1, 0, 0⟩)] 3).2.1 = [3 + 1] ∧
    (get_k_points ⟨⟨1, 0, 0⟩, ⟨0, 1, 0⟩, ⟨0, 0, 1⟩⟩ [(⟨0, 0, 0⟩, ⟨1, 0, 0⟩)] 3).1 = 3 + 1 :=
  get_k_points_single_segment ⟨⟨1, 0, 0⟩, ⟨0, 1, 0⟩, ⟨0, 0, 1⟩⟩ ⟨0, 0, 0⟩ ⟨1, 0, 0⟩ 3
    (by norm_num) (by norm_num [cart, vadd, vsub, vsmul, sqnorm])

theorem getD_map_range {α : Type} (f : ℕ → α) (n j : ℕ) (d : α) (h : j < n) :
    ((List.range n).map f).getD j d = f j := by
  simp [List.getD_eq_getElem?_getD, List.getElem?_map, List.getElem?_range, h]

theorem getD_take_drop (l : List ℚ) (a c k : ℕ) (hk : k < c) :
    ((l.drop a).take c).getD k 0 = l.getD (a + k) 0 := by
  rw [List.getD_eq_getElem?_getD, List.getD_eq_getElem?_getD, List.getElem?_take,
    if_pos hk, List.getElem?_drop]

/-- C3: band assembly places the flat energy column by a reshape-then-transpose
model: for a column of length `n_bands * n_kpoints`, element `flat[i]` ends up
at k-point index `i % n_kpoints` and band index `i / n_kpoints` of the
transposed grid. -/
theorem bands_grid_placement (flat : List ℚ) (nb nk i : ℕ)
    (hlen : flat.length = nb * nk) (hi : i < nb * nk) :
    ∃ M, bands_grid flat nb nk = some M ∧
      (M.getD (i % nk) []).getD (i / nk) 0 = flat.getD i 0 := by
  have hnk : 0 < nk := by
    rcases Nat.eq_zero_or_pos nk with h | h
    · subst h; simp at hi
    · exact h
  refine ⟨transpose2 ((List.range nb).map fun r => (flat.drop (r * nk)).take nk) nk,
    ?_, ?_⟩
  · simp [bands_grid, npReshape2, hlen]
  · have hmod : i % nk < nk := Nat.mod_lt _ hnk
    have hdiv : i / nk < nb := (Nat.div_lt_iff_lt_mul hnk).mpr (by omega)
    rw [transpose2, getD_map_range _ _ _ _ hmod, List.map_map,
      getD_map_range _ _ _ _ hdiv, Function.comp_apply,
      getD_take_drop _ _ _ _ hmod]
    have hsplit : i / nk * nk + i % nk = i := by
      rw [Nat.mul_comm]
      exact Nat.div_add_mod i nk
    rw [hsplit]

/-- Witness for C3 at the literal six-element column of the spec. -/
theorem bands_grid_placement_witness :
    ∃ M, bands_grid [10, 20, 30, 40, 50, 60] 2 3 = some M ∧
      (M.getD (4 % 3) []).getD (4 / 3) 0 = ([10, 20, 30, 40, 50, 60] : List ℚ).getD 4 0 :=
  bands_grid_placement [10, 20, 30, 40, 50, 60] 2 3 4 (by decide) (by decide)

theorem length_flatMap_const {α β : Type} (f : α → List β) (b : ℕ)
    (hb : ∀ a, (f a).length = b) (l : List α) :
    (l.flatMap f).length = l.length * b := by
  induction l with
  | nil => simp
  | cons hd tl ih => simp [List.flatMap_cons, ih, hb]; ring

theorem getElem?_range_of_lt (n i : ℕ) (h : i < n) : (List.range n)[i]? = some i := by
  simp [List.getElem?_range, h]

theorem getElem?_flatMap_const {α β : Type} (f : α → List β) (b : ℕ)
    (hb : ∀ a, (f a).length = b) :
    ∀ (l : List α) (n j : ℕ) (x : α), l[n]? = some x → j < b →
      (l.flatMap f)[n * b + j]? = (f x)[j]? := by
  intro l
  induction l with
  | nil => intro n j x h; simp at h
  | cons hd tl ih =>
    intro n j x h hj
    cases n with
    | zero =>
      have hx : hd = x := by simpa using h
      subst hx
      rw [List.flatMap_cons, Nat.zero_mul, Nat.zero_add, List.getElem?_append,
        if_pos (by rw [hb]; exact hj)]
    | succ m =>
      rw [List.flatMap_cons,
        List.getElem?_append_right (by rw [hb]; nlinarith [Nat.zero_le (m * b)])]
      have harith : (m + 1) * b + j - (f hd).length = m * b + j := by
        rw [hb]; ring_nf; omega
      rw [harith]
      exact ih m j x (by simpa using h) hj

theorem length_occs_flat (E : List (List (List ℚ))) (fermi : ℚ) (ns nk nb : ℕ) :
    (occs_flat E fermi ns nk nb).length = ns * (nk * nb) := by
  unfold occs_flat
  rw [length_flatMap_const _ (nk * nb)
    (fun i => by
      rw [length_flatMap_const _ nb (fun j => by simp), List.length_range]),
    List.length_range]

/-- C4: in band assembly, the occupation at every in-range
(spin, k-point, band) cell is `2.0` when the band energy is strictly below
the Fermi level and `0.0` otherwise; in particular, a band energy exactly
equal to the Fermi level gets occupation `0.0`. -/
theorem occupation_threshold (E : List (List (List ℚ))) (fermi : ℚ)
    (ns nk nb i j k : ℕ) (hi : i < ns) (hj : j < nk) (hk : k < nb) :
    ∃ O, occupations E fermi ns nk nb = some O ∧
      cell3 O i j k = (if cell3 E i j k < fermi then 2 else 0) ∧
      (cell3 E i j k = fermi → cell3 O i j k = 0) := by
  have hlen := length_occs_flat E fermi ns nk nb
  have hjk : j * nb + k < nk * nb := by
    calc j * nb + k < j * nb + nb := by omega
      _ = (j + 1) * nb := by ring
      _ ≤ nk * nb := Nat.mul_le_mul_right nb hj
  have hidx : (occs_flat E fermi ns nk nb)[i * (nk * nb) + (j * nb + k)]? =
      some (if cell3 E i j k < fermi then 2 else 0) := by
    unfold occs_flat
    rw [getElem?_flatMap_const _ (nk * nb)
      (fun i' => by
        rw [length_flatMap_const _ nb (fun j' => by simp), List.length_range])
      (List.range ns) i (j * nb + k) i (getElem?_range_of_lt ns i hi) hjk]
    rw [getElem?_flatMap_const _ nb (fun j' => by simp)
      (List.range nk) j k j (getElem?_range_of_lt nk j hj) hk]
    rw [List.getElem?_map, getElem?_range_of_lt nb k hk]
    rfl
  have hval : cell3 ((List.range ns).map fun i' =>
      (List.range nk).map fun j' =>
        ((occs_flat E fermi ns nk nb).drop (i' * (nk * nb) + j' * nb)).take nb) i j k =
      (if cell3 E i j k < fermi then 2 else 0) := by
    rw [cell3, getD_map_range _ _ _ _ hi, getD_map_range _ _ _ _ hj,
      getD_take_drop _ _ _ _ hk, List.getD_eq_getElem?_getD]
    have harith : i * (nk * nb) + j * nb + k = i * (nk * nb) + (j * nb + k) := by omega
    rw [harith, hidx]
    rfl
  refine ⟨_, ?_, hval, ?_⟩
  · simp [occupations, npReshape3, hlen]
  · intro heq
    rw [hval, if_neg]
    rw [heq]
    exact lt_irrefl fermi

/-- Witness for C4 at a band energy exactly equal to the Fermi level. -/
theorem occupation_threshold_witness :
    ∃ O, occupations [[[1, 2]]] 2 1 1 2 = some O ∧
      cell3 O 0 0 1 = (if cell3 [[[1, 2]]] 0 0 1 < 2 then 2 else 0) ∧
      (cell3 [[[1, 2]]] 0 0 1 = 2 → cell3 O 0 0 1 = 0) :=
  occupation_threshold [[[1, 2]]] 2 1 1 2 0 0 1 (by decide) (by decide) (by decide)

theorem pyRound_intCast (z : ℤ) : pyRound ((z : ℤ) : ℚ) = z := by
  unfold pyRound
  rw [ratFloor_eq_floor, Int.floor_intCast, if_pos]
  norm_num

/-- Faithfulness of `pyRound` to Python's `round`: the result is within one
half of the argument (the tie at exactly one half is broken towards the even
integer by the `f % 2` branch). -/
theorem pyRound_near (q : ℚ) : |q - ((pyRound q : ℤ) : ℚ)| ≤ 1 / 2 := by
  have h1 : ((ratFloor q : ℤ) : ℚ) ≤ q := by
    rw [ratFloor_eq_floor]
    exact Int.floor_le q
  have h2 : q < ((ratFloor q : ℤ) : ℚ) + 1 := by
    rw [ratFloor_eq_floor]
    exact Int.lt_floor_add_one q
  unfold pyRound
  show |q - ((if q - ((ratFloor q : ℤ) : ℚ) < 1 / 2 then ratFloor q
      else if (1 / 2 : ℚ) < q - ((ratFloor q : ℤ) : ℚ) then ratFloor q + 1
      else if ratFloor q % 2 = 0 then ratFloor q else ratFloor q + 1 : ℤ) : ℚ)| ≤
    1 / 2
  split_ifs with ha hb hc <;> rw [abs_le] <;> push_cast <;> constructor <;>
    linarith

theorem bandstructure_failure_eval (fermi : ℚ) (B : Mat3)
    (segs : List (Vec3 × Vec3)) (d : ℕ) (col0 col1 : List ℚ)
    (hmis : col1.length ≠
      (pyRound ((col0.length : ℚ) / ((get_k_points B segs d).1 : ℚ))).toNat *
        (get_k_points B segs d).1) :
    parse_bandstructure fermi B segs d col0 col1 =
      ([{ energy_fermi := some fermi, reciprocal_cell := some B,
          segments := [] }], true) := by
  simp only [parse_bandstructure]
  rw [npReshape2, if_neg hmis]

/-- C7 counterexample: on a band-energy column whose length does not factor
as `n_bands * n_kpoints` (here 5 values against 2 bands x 3 k-points), the
returned archive state still contains one band-structure record, carrying
the Fermi level and the reciprocal cell with an empty segment list — the
partially populated record the claim says is never emitted. -/
theorem parse_bandstructure_emits_partial_record :
    parse_bandstructure 0 ⟨⟨1, 0, 0⟩, ⟨0, 1, 0⟩, ⟨0, 0, 1⟩⟩
      [(⟨0, 0, 0⟩, ⟨1, 0, 0⟩)] 2 [1, 2, 3, 4, 5, 6] [1, 2, 3, 4, 5] =
      ([{ energy_fermi := some 0,
          reciprocal_cell := some ⟨⟨1, 0, 0⟩, ⟨0, 1, 0⟩, ⟨0, 0, 1⟩⟩,
          segments := [] }], true) := by
  have h1 : (get_k_points ⟨⟨1, 0, 0⟩, ⟨0, 1, 0⟩, ⟨0, 0, 1⟩⟩
      [(⟨0, 0, 0⟩, ⟨1, 0, 0⟩)] 2).1 = 3 :=
    (get_k_points_single_eval _ _ _ 2
      (by norm_num [cart, vadd, vsub, vsmul, sqnorm])).2
  refine bandstructure_failure_eval 0 _ _ 2 _ _ ?_
  rw [h1]
  have h2 : ((([1, 2, 3, 4, 5, 6] : List ℚ).length : ℚ) / ((3 : ℕ) : ℚ)) =
      ((2 : ℤ) : ℚ) := by norm_num
  rw [h2, pyRound_intCast]
  decide

/-- C7 (amended): when the flat band-energy column cannot be reshaped to
`(n_bands, n_kpoints)`, the failure is reported and no segment is populated,
but the band-structure record itself — already appended with its Fermi level
and reciprocal cell — remains emitted. -/
theorem parse_bandstructure_reshape_failure (fermi : ℚ) (B : Mat3)
    (segs : List (Vec3 × Vec3)) (d : ℕ) (col0 col1 : List ℚ)
    (hmis : col1.length ≠
      (pyRound ((col0.length : ℚ) / ((get_k_points B segs d).1 : ℚ))).toNat *
        (get_k_points B segs d).1) :
    parse_bandstructure fermi B segs d col0 col1 =
      ([{ energy_fermi := some fermi, reciprocal_cell := some B,
          segments := [] }], true) :=
  bandstructure_failure_eval fermi B segs d col0 col1 hmis

/-- Witness for the amended C7 at a concrete four-element column. -/
theorem parse_bandstructure_reshape_failure_witness :
    parse_bandstructure 0 ⟨⟨1, 0, 0⟩, ⟨0, 1, 0⟩, ⟨0, 0, 1⟩⟩
      [(⟨0, 0, 0⟩, ⟨1, 0, 0⟩)] 2 [1, 2, 3, 4, 5, 6] [1, 2, 3, 4] =
      ([{ energy_fermi := some 0,
          reciprocal_cell := some ⟨⟨1, 0, 0⟩, ⟨0, 1, 0⟩, ⟨0, 0, 1⟩⟩,
          segments := [] }], true) := by
  refine parse_bandstructure_reshape_failure 0 _ _ 2 _ _ ?_
  have h1 : (get_k_points ⟨⟨1, 0, 0⟩, ⟨0, 1, 0⟩, ⟨0, 0, 1⟩⟩
      [(⟨0, 0, 0⟩, ⟨1, 0, 0⟩)] 2).1 = 3 :=
    (get_k_points_single_eval _ _ _ 2
      (by norm_num [cart, vadd, vsub, vsmul, sqnorm])).2
  rw [h1]
  have h2 : ((([1, 2, 3, 4, 5, 6] : List ℚ).length : ℚ) / ((3 : ℕ) : ℚ)) =
      ((2 : ℤ) : ℚ) := by norm_num
  rw [h2, pyRound_intCast]
  decide

/-- C5: when the flat hopping value count is not exactly
`n_wigner_seitz_points * n_orbitals ^ 2 * 7`, the reshape fails in a
contained way: the warning flag is set, the matrix value stays absent, and
`n_wigner_seitz_points` and `degeneracy_factors`, already read from the
degeneracy block, remain populated. -/
theorem parse_hoppings_reshape_failure (n_orb : ℤ) (deg : List ℤ)
    (hop : List ℚ) (_hblock : 2 ≤ deg.length)
    (hmis : hop.length ≠ (deg.getD 1 0).toNat * ((n_orb * n_orb).toNat * 7)) :
    (parse_hoppings n_orb deg hop).hopping.value = none ∧
    (parse_hoppings n_orb deg hop).warned = true ∧
    (parse_hoppings n_orb deg hop).hopping.n_wigner_seitz_points =
      some (deg.getD 1 0) ∧
    (parse_hoppings n_orb deg hop).hopping.degeneracy_factors =
      some (deg.drop 2) := by
  have hvalue : npReshape3 hop (deg.getD 1 0).toNat (n_orb * n_orb).toNat 7 =
      none := by
    unfold npReshape3
    rw [if_neg hmis]
  refine ⟨?_, ?_, rfl, rfl⟩
  · show npReshape3 hop (deg.getD 1 0).toNat (n_orb * n_orb).toNat 7 = none
    exact hvalue
  · show (npReshape3 hop (deg.getD 1 0).toNat (n_orb * n_orb).toNat 7).isNone =
      true
    rw [hvalue]
    rfl

/-- Witness for C5: 3 hopping values against 2 Wigner-Seitz points and one
orbital, which would need 14. -/
theorem parse_hoppings_reshape_failure_witness :
    (parse_hoppings 1 [4, 2, 1, 1] [1, 2, 3]).hopping.value = none ∧
    (parse_hoppings 1 [4, 2, 1, 1] [1, 2, 3]).warned = true ∧
    (parse_hoppings 1 [4, 2, 1, 1] [1, 2, 3]).hopping.n_wigner_seitz_points =
      some (([4, 2, 1, 1] : List ℤ).getD 1 0) ∧
    (parse_hoppings 1 [4, 2, 1, 1] [1, 2, 3]).hopping.degeneracy_factors =
      some (([4, 2, 1, 1] : List ℤ).drop 2) :=
  parse_hoppings_reshape_failure 1 [4, 2, 1, 1] [1, 2, 3] (by decide) (by decide)

theorem npReshape3_cell (flat : List ℚ) (a b c i j k : ℕ)
    (hlen : flat.length = a * (b * c)) (hi : i < a) (hj : j < b) (hk : k < c) :
    ∃ v, npReshape3 flat a b c = some v ∧
      (v[i]?).bind (fun m => (m[j]?).bind fun r => r[k]?) =
        some (flat.getD (i * (b * c) + j * c + k) 0) ∧
      cell3 v i j k = flat.getD (i * (b * c) + j * c + k) 0 := by
  have hidx : i * (b * c) + j * c + k < flat.length := by
    rw [hlen]
    calc i * (b * c) + j * c + k < i * (b * c) + j * c + c := by omega
      _ = i * (b * c) + (j + 1) * c := by ring
      _ ≤ i * (b * c) + b * c := by
          have := Nat.mul_le_mul_right c (by omega : j + 1 ≤ b)
          omega
      _ = (i + 1) * (b * c) := by ring
      _ ≤ a * (b * c) := Nat.mul_le_mul_right _ (by omega)
  refine ⟨(List.range a).map fun i' =>
      (List.range b).map fun j' => (flat.drop (i' * (b * c) + j' * c)).take c,
    by unfold npReshape3; rw [if_pos hlen], ?_, ?_⟩
  · rw [List.getElem?_map, getElem?_range_of_lt a i hi, Option.map_some',
      Option.some_bind, List.getElem?_map, getElem?_range_of_lt b j hj,
      Option.map_some', Option.some_bind, List.getElem?_take, if_pos hk,
      List.getElem?_drop, List.getElem?_eq_getElem (by omega),
      List.getD_eq_getElem?_getD, List.getElem?_eq_getElem hidx]
    rfl
  · rw [cell3, getD_map_range _ _ _ _ hi, getD_map_range _ _ _ _ hj,
      getD_take_drop _ _ _ _ hk]

/-- C6: when the hopping matrix value is present, the fallback Fermi level is
the matrix entry at Wigner-Seitz point index `floor(n_wigner_seitz_points/2)`,
orbital-pair index 0, field index 5 (in eV); `n_wigner_seitz_points` is the
degeneracy block's second element and `degeneracy_factors` the elements after
it. -/
theorem parse_hoppings_fermi_fallback (n_orb : ℤ) (deg : List ℤ)
    (hop : List ℚ) (_hblock : 2 ≤ deg.length) (horb : 1 ≤ n_orb)
    (hw : 1 ≤ deg.getD 1 0)
    (hlen : hop.length = (deg.getD 1 0).toNat * ((n_orb * n_orb).toNat * 7)) :
    (parse_hoppings n_orb deg hop).hopping.n_wigner_seitz_points =
      some (deg.getD 1 0) ∧
    (parse_hoppings n_orb deg hop).hopping.degeneracy_factors =
      some (deg.drop 2) ∧
    ∃ v, (parse_hoppings n_orb deg hop).hopping.value = some v ∧
      (parse_hoppings n_orb deg hop).fermi =
        some (cell3 v ((deg.getD 1 0).toNat / 2) 0 5) := by
  have hb1 : 1 ≤ (n_orb * n_orb).toNat := by
    have h : (1 : ℤ) ≤ n_orb * n_orb := by nlinarith
    omega
  have ha1 : 1 ≤ (deg.getD 1 0).toNat := by omega
  have hnh : (deg.getD 1 0).toNat / 2 < (deg.getD 1 0).toNat :=
    Nat.div_lt_self (by omega) (by omega)
  obtain ⟨v, hv, hchain, hcell⟩ :=
    npReshape3_cell hop (deg.getD 1 0).toNat (n_orb * n_orb).toNat 7
      ((deg.getD 1 0).toNat / 2) 0 5 hlen hnh (by omega) (by omega)
  refine ⟨rfl, rfl, v, ?_, ?_⟩
  · show npReshape3 hop (deg.getD 1 0).toNat (n_orb * n_orb).toNat 7 = some v
    exact hv
  · show (npReshape3 hop (deg.getD 1 0).toNat (n_orb * n_orb).toNat 7).bind
      (fun w => (w[(deg.getD 1 0).toNat / 2]?).bind fun m =>
        (m[0]?).bind fun r => r[5]?) =
      some (cell3 v ((deg.getD 1 0).toNat / 2) 0 5)
    rw [hv, Option.some_bind, hchain, hcell]

/-- Witness for C6: one orbital, one Wigner-Seitz point, seven hopping
fields with value 42 at field index 5. -/
theorem parse_hoppings_fermi_fallback_witness :
    (parse_hoppings 1 [1, 1] [0, 0, 0, 0, 0, 42, 0]).hopping.n_wigner_seitz_points =
      some (([1, 1] : List ℤ).getD 1 0) ∧
    (parse_hoppings 1 [1, 1] [0, 0, 0, 0, 0, 42, 0]).hopping.degeneracy_factors =
      some (([1, 1] : List ℤ).drop 2) ∧
    ∃ v, (parse_hoppings 1 [1, 1] [0, 0, 0, 0, 0, 42, 0]).hopping.value = some v ∧
      (parse_hoppings 1 [1, 1] [0, 0, 0, 0, 0, 42, 0]).fermi =
        some (cell3 v ((([1, 1] : List ℤ).getD 1 0).toNat / 2) 0 5) :=
  parse_hoppings_fermi_fallback 1 [1, 1] [0, 0, 0, 0, 0, 42, 0]
    (by decide) (by decide) (by decide) (by decide)

/-- C9 counterexample: for a non-empty `hr_file`, the first failing lookup
in `Wannier90HrParser.parse_hoppings` is the instance attribute
`self.archive` — an `AttributeError`, not the `NameError` on
`sec_hopping_matrix` the claim names, because CPython evaluates the
right-hand side of the assignment before its store target. -/
theorem hr_parse_hoppings_error_kind :
    runParseHoppings true = Except.error (PyErr.attrErr "archive") ∧
    (Except.error (PyErr.attrErr "archive") : Except PyErr Unit) ≠
      Except.error (PyErr.nameErr "sec_hopping_matrix") := by
  constructor
  · rfl
  · simp

/-- C9 (amended): for every non-empty `hr_file`, `parse_hoppings` raises an
unhandled `AttributeError` on `self.archive` (evaluated before the
undefined name `sec_hopping_matrix` is reached) and so never produces a
hopping matrix; an empty `hr_file` returns `None` after the warning. -/
theorem hr_parse_hoppings_always_fails :
    runParseHoppings true = Except.error (PyErr.attrErr "archive") ∧
    runParseHoppings false = Except.ok () := by
  constructor
  · rfl
  · rfl

/-- C10: the Fermi level reported through the new-schema output path is the
constant 0.5 eV for every input: two runs from any two parsed-data states
append the same value, which does not depend on any parsed data. -/
theorem parse_fermi_level_constant (s1 s2 : W90DataState)
    (output : OutputsSec) :
    parse_fermi_level s1 output = parse_fermi_level s2 output ∧
    (parse_fermi_level s1 output).fermi_level =
      output.fermi_level ++ [1 / 2] :=
  ⟨rfl, rfl⟩

end Wannier90
